import Mathlib

/-!
Verification of the table-rotation core of the rotate_cli crate
(src/rust/src/lib.rs): the perfect-square length validator `square_len`
and the in-place one-step clockwise ring rotation `rotate_right` /
`rotate_ring_clockwise`.

The Rust buffer `&mut [T]` is embedded as an explicitly passed `List α`;
reads `data[i]` go through `List.get?` so that the out-of-bounds panic of
slice indexing is modelled by the `none` branch of an `Option`, and writes
go through `List.set`. Machine integers (`usize`) are modelled as `Nat`:
all arithmetic involved (`row * n + col`, `n - 1 - layer`, `n * n`) stays
far below 2^64 whenever the buffer fits in memory, so no overflow wrapping
is reachable and plain `Nat` arithmetic is faithful (Rust `usize`
subtraction `n - 1 - layer` is only evaluated under `n >= 2`,
`layer < n / 2`, where it cannot underflow, matching truncated `Nat`
subtraction on that domain).
-/

namespace TableRotation

universe u

variable {α : Type u}

/-- The error enum `RotationError` of src/rust/src/lib.rs (lines 10-14). -/
inductive RotationError where
  | NotSquare
  | Empty
deriving DecidableEq

/-- Largest `k ≤ m` with `k * k ≤ len` (and `0` when there is none).
Helper for `floorSqrt`; structural recursion on the search bound. -/
def floorSqrtAux (len : Nat) : Nat → Nat
  | 0 => 0
  | m + 1 => if (m + 1) * (m + 1) ≤ len then m + 1 else floorSqrtAux len m

/-- Model of the Rust expression `(len as f64).sqrt() as usize` in
`square_len` (src/rust/src/lib.rs line 43): the integer floor square root.
For every 64-bit `len`, the correctly rounded IEEE-754 double square root
of the rounded conversion of `len` truncates to exactly the integer floor
square root (the combined rounding error is strictly below half an ulp of
the integer result), which `floorSqrt` computes. -/
def floorSqrt (len : Nat) : Nat :=
  floorSqrtAux len len

/-- Body of `square_len` (src/rust/src/lib.rs lines 38-45) generalized over
the candidate root produced by the floating-point step: `Some(0)` for
`len == 0`, otherwise the candidate `n` is accepted iff the exact integer
check `n * n == len` passes. -/
def square_len_with (cand : Nat → Nat) (len : Nat) : Option Nat :=
  if len = 0 then some 0
  else if cand len * cand len = len then some (cand len) else none

/-- The function `square_len` of src/rust/src/lib.rs (lines 38-45), with the
floating-point square root modelled by `floorSqrt`. -/
def square_len (len : Nat) : Option Nat :=
  square_len_with floorSqrt len

/-- The helper `idx` of src/rust/src/lib.rs (lines 146-148):
row-major flattening `row * n + col`. -/
def idx (n row col : Nat) : Nat :=
  row * n + col

/-- One swap-and-carry pass, the shared body of the four edge loops of
`rotate_ring_clockwise` (src/rust/src/lib.rs lines 113-138): visit the
given flat indices in order; at each index read the old value (`none`
models the panic of out-of-bounds `data[i]`), write the carried value, and
carry the old value forward. Returns the final buffer and final carry. -/
def carryWalk (data : List α) (prev : α) : List Nat → Option (List α × α)
  | [] => some (data, prev)
  | i :: is =>
    match data.get? i with
    | none => none
    | some temp => carryWalk (data.set i prev) temp is

/-- The cells of ring `layer` of an `n × n` table in exactly the order the
four loops of `rotate_ring_clockwise` visit them: top row left to right
(cols `first..=last`), right column `first+1..=last`, bottom row
`(first..last).rev()`, left column `(first+1..last).rev()`. -/
def ringWalk (n layer : Nat) : List (Nat × Nat) :=
  ((List.range' layer (n - 1 - layer + 1 - layer)).map fun col => (layer, col)) ++
    ((List.range' (layer + 1) (n - 1 - layer - layer)).map fun row => (row, n - 1 - layer)) ++
      ((List.range' layer (n - 1 - layer - layer)).reverse.map
        fun col => (n - 1 - layer, col)) ++
        ((List.range' (layer + 1) (n - 1 - layer - layer - 1)).reverse.map
          fun row => (row, layer))

/-- The function `rotate_ring_clockwise` of src/rust/src/lib.rs
(lines 105-139): save the element below the ring's top-left corner at
`(first + 1, first)`, then carry it clockwise around the ring. -/
def rotate_ring_clockwise (data : List α) (n layer : Nat) : Option (List α) :=
  match data.get? (idx n (layer + 1) layer) with
  | none => none
  | some prev =>
    match carryWalk data prev ((ringWalk n layer).map fun p => idx n p.1 p.2) with
    | none => none
    | some (data', _) => some data'

/-- The loop `for layer in 0..n / 2` of `rotate_right`
(src/rust/src/lib.rs lines 94-96), over an explicit list of layers. -/
def rotateLayers (data : List α) (n : Nat) : List Nat → Option (List α)
  | [] => some data
  | l :: ls =>
    match rotate_ring_clockwise data n l with
    | none => none
    | some data' => rotateLayers data' n ls

/-- The function `rotate_right` of src/rust/src/lib.rs (lines 79-99). The
`&mut [T]` buffer is passed and returned explicitly: `some (e, buf)` pairs
the Rust return value with the final buffer contents, while the outer
`none` models an out-of-bounds panic inside the ring walk (proved
unreachable on the validated path). -/
def rotate_right (data : List α) : Option (Except RotationError Unit × List α) :=
  let len := data.length
  if len = 0 then some (Except.error RotationError.Empty, data)
  else
    match square_len len with
    | none => some (Except.error RotationError.NotSquare, data)
    | some n =>
      if n ≤ 1 then some (Except.ok (), data)
      else
        match rotateLayers data n (List.range (n / 2)) with
        | none => none
        | some data' => some (Except.ok (), data')

/-- Iterated rotation: apply `rotate_right` `k` times, requiring every call
to report success (harness for the repeated-rotation laws). -/
def rotateIter : Nat → List α → Option (List α)
  | 0, data => some data
  | k + 1, data =>
    match rotate_right data with
    | some (Except.ok _, data') => rotateIter k data'
    | _ => none

/-- Ring membership, following the spec's data model: cell `(r, c)` lies on
ring `layer` of an `n × n` table when it is inside the sub-square
`[layer, n-1-layer]` and touches its boundary. -/
def onRing (n layer r c : Nat) : Prop :=
  layer ≤ r ∧ r ≤ n - 1 - layer ∧ layer ≤ c ∧ c ≤ n - 1 - layer ∧
    (r = layer ∨ r = n - 1 - layer ∨ c = layer ∨ c = n - 1 - layer)

instance (n layer r c : Nat) : Decidable (onRing n layer r c) := by
  unfold onRing
  infer_instance

/-- The counter-clockwise neighbor of a cell of ring `layer`: the cell whose
old value a one-step clockwise ring rotation moves into the given cell.
On the top row the neighbor is one step left (below for the top-left
corner), on the right column one step up, on the bottom row one step
right, on the left column one step down. -/
def ccwNeighbor (n layer : Nat) (p : Nat × Nat) : Nat × Nat :=
  let first := layer
  let last := n - 1 - layer
  if p.1 = first then (if p.2 = first then (first + 1, first) else (first, p.2 - 1))
  else if p.2 = last then (p.1 - 1, last)
  else if p.1 = last then (last, p.2 + 1)
  else (p.1 + 1, p.2)

/-! ## Correctness of the square-length validator -/

theorem floorSqrtAux_eq_of_sq (len n : Nat) (hle : n * n ≤ len)
    (hgt : len < (n + 1) * (n + 1)) :
    ∀ b : Nat, n ≤ b → floorSqrtAux len b = n := by
  intro b
  induction b with
  | zero =>
    intro hnb
    have hn0 : n = 0 := Nat.le_zero.mp hnb
    subst hn0
    rfl
  | succ m ih =>
    intro hnb
    by_cases hc : (m + 1) * (m + 1) ≤ len
    · have hn : n = m + 1 := by
        rcases Nat.lt_or_ge m n with h | h
        · omega
        · exfalso
          have h1 : (n + 1) * (n + 1) ≤ (m + 1) * (m + 1) :=
            Nat.mul_le_mul (by omega) (by omega)
          omega
      subst hn
      simp [floorSqrtAux, hc]
    · have hne : n ≠ m + 1 := by
        intro h
        subst h
        exact hc hle
      have hnm : n ≤ m := by omega
      simp only [floorSqrtAux, if_neg hc]
      exact ih hnm

theorem floorSqrt_of_sq (n len : Nat) (h : n * n = len) : floorSqrt len = n := by
  have hle : n ≤ len := by
    rcases Nat.eq_zero_or_pos n with h0 | h0
    · omega
    · calc n = n * 1 := (Nat.mul_one n).symm
        _ ≤ n * n := Nat.mul_le_mul_left n h0
        _ = len := h
  have hgt : len < (n + 1) * (n + 1) := by
    have he : (n + 1) * (n + 1) = n * n + 2 * n + 1 := by ring
    omega
  exact floorSqrtAux_eq_of_sq len n (Nat.le_of_eq h) hgt len hle

theorem square_len_eq_some_iff (len n : Nat) :
    square_len len = some n ↔ n * n = len := by
  unfold square_len square_len_with
  by_cases h0 : len = 0
  · subst h0
    rw [if_pos rfl]
    constructor
    · intro h
      injection h with h
      subst h
      rfl
    · intro h
      have hn : n = 0 := by
        rcases Nat.eq_zero_or_pos n with h1 | h1
        · exact h1
        · exfalso
          have h2 : 1 * 1 ≤ n * n := Nat.mul_le_mul h1 h1
          omega
      rw [hn]
  · rw [if_neg h0]
    by_cases hm : floorSqrt len * floorSqrt len = len
    · rw [if_pos hm]
      constructor
      · intro h
        injection h with h
        rw [← h]
        exact hm
      · intro h
        rw [floorSqrt_of_sq n len h]
    · rw [if_neg hm]
      constructor
      · intro h
        exact Option.noConfusion h
      · intro h
        have h2 : floorSqrt len = n := floorSqrt_of_sq n len h
        rw [h2] at hm
        exact absurd h hm

theorem square_len_eq_none_iff (len : Nat) :
    square_len len = none ↔ ∀ m : Nat, m * m ≠ len := by
  constructor
  · intro h m hm
    have h2 := (square_len_eq_some_iff len m).mpr hm
    rw [h] at h2
    exact Option.noConfusion h2
  · intro h
    cases hsq : square_len len with
    | none => rfl
    | some k => exact absurd ((square_len_eq_some_iff len k).mp hsq) (h k)

/-- C2: for every non-negative integer `len`, `square_len len` returns
`some n` if and only if `n * n = len` (hence the accepted root exists and
is unique exactly when `len` is a perfect square); in particular
`square_len 0 = some 0`, `square_len 1 = some 1`, and every non-square
length is rejected with `none`. -/
theorem square_len_iff_perfect_square :
    (∀ len n : Nat, square_len len = some n ↔ n * n = len) ∧
    square_len 0 = some 0 ∧ square_len 1 = some 1 ∧
    (∀ len : Nat, (∀ m : Nat, m * m ≠ len) → square_len len = none) :=
  ⟨square_len_eq_some_iff, rfl, rfl,
    fun len h => (square_len_eq_none_iff len).mpr h⟩

/-- C10: the validator never returns a wrong side length, whatever candidate
root the floating-point square-root step produces: if
`square_len_with cand len = some m` then `m * m = len` exactly. A bad
candidate can only cause a perfect square to be rejected, never a
non-square to be accepted. -/
theorem square_len_with_sound (cand : Nat → Nat) (len m : Nat)
    (h : square_len_with cand len = some m) : m * m = len := by
  unfold square_len_with at h
  by_cases h0 : len = 0
  · subst h0
    rw [if_pos rfl] at h
    injection h with h
    rw [← h]
  · rw [if_neg h0] at h
    by_cases hc : cand len * cand len = len
    · rw [if_pos hc] at h
      injection h with h
      rw [← h]
      exact hc
    · rw [if_neg hc] at h
      exact Option.noConfusion h

theorem square_len_with_sound_witness :
    square_len_with (fun _ => 2) 4 = some 2 ∧ 2 * 2 = 4 :=
  ⟨rfl, square_len_with_sound (fun _ => 2) 4 2 rfl⟩

/-! ## Concrete behaviour of the rotation entry point -/

/-- C6: the intentional asymmetry on the empty case: the validator accepts
length 0 as side 0, while the rotation entry point reports the empty
buffer as the `Empty` failure (leaving it unchanged) rather than success. -/
theorem zero_length_policy_asymmetry :
    square_len 0 = some 0 ∧
    rotate_right ([] : List Nat) = some (Except.error RotationError.Empty, []) :=
  ⟨rfl, rfl⟩

/-- C7 counterexample: rotating the 0-element buffer does not report
success with an unchanged buffer; it reports the `Empty` failure. -/
theorem rotate_empty_not_success :
    rotate_right ([] : List Nat) ≠ some (Except.ok (), []) := by
  rw [show rotate_right ([] : List Nat)
      = some (Except.error RotationError.Empty, []) from rfl]
  simp

/-- C7 (amended): rotating a buffer of exactly 1 element reports success and
leaves the buffer unchanged; the 0-element buffer is instead reported as
the `Empty` failure (also unchanged), per the entry point's empty check. -/
theorem singleton_rotation_fixed_point (a : List α) (h : a.length = 1) :
    rotate_right a = some (Except.ok (), a) := by
  unfold rotate_right
  rw [h]
  rfl

theorem singleton_rotation_fixed_point_witness :
    rotate_right [(42 : Nat)] = some (Except.ok (), [42]) :=
  singleton_rotation_fixed_point [(42 : Nat)] rfl

/-- C8: the two worked examples: one clockwise step on the 3×3 table
`[1..9]` (center 5 unchanged) and on the 4×4 table `[1..16]`. -/
theorem rotate_right_worked_examples :
    rotate_right ([1, 2, 3, 4, 5, 6, 7, 8, 9] : List Nat) =
      some (Except.ok (), [4, 1, 2, 7, 5, 3, 8, 9, 6]) ∧
    rotate_right ([1, 2, 3, 4, 5, 6, 7, 8, 9, 10, 11, 12, 13, 14, 15, 16] : List Nat) =
      some (Except.ok (), [5, 1, 2, 3, 9, 10, 6, 4, 13, 11, 7, 8, 14, 15, 16, 12]) :=
  ⟨rfl, rfl⟩

/-- C4 counterexample: for the 6×6 table `[0..35]`, `4 * (6 - 1) = 20`
repeated rotations do not reproduce the original buffer (the second ring
has perimeter 12, which does not divide 20). -/
theorem rotate_six_by_six_twenty_not_id :
    rotateIter 20 (List.range 36) ≠ some (List.range 36) := by
  decide

theorem rotate_right_ok_of_layers (data : List α) (n : Nat) (h0 : ¬ data.length = 0)
    (hsq : square_len data.length = some n) (h1 : ¬ n ≤ 1) (b : List α)
    (hl : rotateLayers data n (List.range (n / 2)) = some b) :
    rotate_right data = some (Except.ok (), b) := by
  unfold rotate_right
  rw [if_neg h0, hsq]
  simp only [if_neg h1, hl]

theorem rotateIter_succ_of_ok (k : Nat) (a b : List α)
    (h : rotate_right a = some (Except.ok (), b)) :
    rotateIter (k + 1) a = rotateIter k b := by
  conv_lhs => unfold rotateIter
  rw [h]

/-- C4 (amended): rotating a side-`n` table exactly `4 * (n - 1)` times (the
outer ring's perimeter) returns it to its original state for the
single-ring sides `n = 2` and `n = 3`, for every initial contents — in
particular 8 repeated rotations of any 3×3 buffer reproduce the original
buffer — but not for every side `n ≥ 2`: with several rings it fails
whenever some inner ring's perimeter does not divide `4 * (n - 1)`
(for example `n = 6`). -/
theorem rotate_perimeter_times_identity_small (β : Type u)
    (x0 x1 x2 x3 x4 x5 x6 x7 x8 y0 y1 y2 y3 : β) :
    rotateIter 8 [x0, x1, x2, x3, x4, x5, x6, x7, x8] =
      some [x0, x1, x2, x3, x4, x5, x6, x7, x8] ∧
    rotateIter 4 [y0, y1, y2, y3] = some [y0, y1, y2, y3] := by
  have s3 : ∀ a0 a1 a2 a3 a4 a5 a6 a7 a8 : β,
      rotate_right [a0, a1, a2, a3, a4, a5, a6, a7, a8] =
        some (Except.ok (), [a3, a0, a1, a6, a4, a2, a7, a8, a5]) :=
    fun a0 a1 a2 a3 a4 a5 a6 a7 a8 =>
      rotate_right_ok_of_layers [a0, a1, a2, a3, a4, a5, a6, a7, a8] 3
        (by simp) rfl (by omega) [a3, a0, a1, a6, a4, a2, a7, a8, a5] rfl
  have s2 : ∀ a0 a1 a2 a3 : β,
      rotate_right [a0, a1, a2, a3] = some (Except.ok (), [a2, a0, a3, a1]) :=
    fun a0 a1 a2 a3 =>
      rotate_right_ok_of_layers [a0, a1, a2, a3] 2
        (by simp) rfl (by omega) [a2, a0, a3, a1] rfl
  constructor
  · calc rotateIter 8 [x0, x1, x2, x3, x4, x5, x6, x7, x8]
        = rotateIter 7 [x3, x0, x1, x6, x4, x2, x7, x8, x5] :=
          rotateIter_succ_of_ok 7 _ _ (s3 x0 x1 x2 x3 x4 x5 x6 x7 x8)
      _ = rotateIter 6 [x6, x3, x0, x7, x4, x1, x8, x5, x2] :=
          rotateIter_succ_of_ok 6 _ _ (s3 x3 x0 x1 x6 x4 x2 x7 x8 x5)
      _ = rotateIter 5 [x7, x6, x3, x8, x4, x0, x5, x2, x1] :=
          rotateIter_succ_of_ok 5 _ _ (s3 x6 x3 x0 x7 x4 x1 x8 x5 x2)
      _ = rotateIter 4 [x8, x7, x6, x5, x4, x3, x2, x1, x0] :=
          rotateIter_succ_of_ok 4 _ _ (s3 x7 x6 x3 x8 x4 x0 x5 x2 x1)
      _ = rotateIter 3 [x5, x8, x7, x2, x4, x6, x1, x0, x3] :=
          rotateIter_succ_of_ok 3 _ _ (s3 x8 x7 x6 x5 x4 x3 x2 x1 x0)
      _ = rotateIter 2 [x2, x5, x8, x1, x4, x7, x0, x3, x6] :=
          rotateIter_succ_of_ok 2 _ _ (s3 x5 x8 x7 x2 x4 x6 x1 x0 x3)
      _ = rotateIter 1 [x1, x2, x5, x0, x4, x8, x3, x6, x7] :=
          rotateIter_succ_of_ok 1 _ _ (s3 x2 x5 x8 x1 x4 x7 x0 x3 x6)
      _ = rotateIter 0 [x0, x1, x2, x3, x4, x5, x6, x7, x8] :=
          rotateIter_succ_of_ok 0 _ _ (s3 x1 x2 x5 x0 x4 x8 x3 x6 x7)
      _ = some [x0, x1, x2, x3, x4, x5, x6, x7, x8] := rfl
  · calc rotateIter 4 [y0, y1, y2, y3]
        = rotateIter 3 [y2, y0, y3, y1] := rotateIter_succ_of_ok 3 _ _ (s2 y0 y1 y2 y3)
      _ = rotateIter 2 [y3, y2, y1, y0] := rotateIter_succ_of_ok 2 _ _ (s2 y2 y0 y3 y1)
      _ = rotateIter 1 [y1, y3, y0, y2] := rotateIter_succ_of_ok 1 _ _ (s2 y3 y2 y1 y0)
      _ = rotateIter 0 [y0, y1, y2, y3] := rotateIter_succ_of_ok 0 _ _ (s2 y1 y3 y0 y2)
      _ = some [y0, y1, y2, y3] := rfl

/-! ## Semantics of the swap-and-carry walk -/

theorem set_cons_perm :
    ∀ (l : List α) (i : Nat) (v : α) (h : i < l.length),
      (l.get ⟨i, h⟩ :: l.set i v).Perm (v :: l) := by
  intro l
  induction l with
  | nil =>
    intro i v h
    exact absurd h (by simp)
  | cons x xs ih =>
    intro i v h
    cases i with
    | zero => exact List.Perm.swap v x xs
    | succ i' =>
      have h' : i' < xs.length := by
        simpa using h
      have p1 : (xs.get ⟨i', h'⟩ :: x :: xs.set i' v).Perm
          (x :: xs.get ⟨i', h'⟩ :: xs.set i' v) := List.Perm.swap x (xs.get ⟨i', h'⟩) _
      have p2 : (x :: xs.get ⟨i', h'⟩ :: xs.set i' v).Perm (x :: v :: xs) :=
        (ih i' v h').cons x
      have p3 : (x :: v :: xs).Perm (v :: x :: xs) := List.Perm.swap v x xs
      exact (p1.trans p2).trans p3

theorem carryWalk_spec :
    ∀ (is : List Nat) (a : List α) (v : α), is.Nodup → (∀ i ∈ is, i < a.length) →
      ∃ b out, carryWalk a v is = some (b, out) ∧
        b.length = a.length ∧
        (∀ k : Nat, k ∉ is → b.get? k = a.get? k) ∧
        (∀ h0 : 0 < is.length, b.get? (is.get ⟨0, h0⟩) = some v) ∧
        (∀ j : Nat, ∀ hj : j + 1 < is.length,
          b.get? (is.get ⟨j + 1, hj⟩) = a.get? (is.get ⟨j, by omega⟩)) ∧
        (∀ hne : is ≠ [], a.get? (is.getLast hne) = some out) := by
  intro is
  induction is with
  | nil =>
    intro a v _ _
    refine ⟨a, v, rfl, rfl, fun k _ => rfl, ?_, ?_, ?_⟩
    · intro h0
      exact absurd h0 (by simp)
    · intro j hj
      exact absurd hj (by simp)
    · intro hne
      exact absurd rfl hne
  | cons i tl ih =>
    intro a v hnd hb
    have hi : i < a.length := hb i (List.mem_cons_self i tl)
    have hv : a.get? i = some (a.get ⟨i, hi⟩) := List.get?_eq_get hi
    obtain ⟨hitl, hndtl⟩ := List.nodup_cons.mp hnd
    have hb1 : ∀ j ∈ tl, j < (a.set i v).length := by
      intro j hj
      rw [List.length_set]
      exact hb j (List.mem_cons_of_mem i hj)
    obtain ⟨b, out, hrun, hlen, hunt, hhead, hstep, hlast⟩ :=
      ih (a.set i v) (a.get ⟨i, hi⟩) hndtl hb1
    have hwalk : carryWalk a v (i :: tl) = some (b, out) := by
      unfold carryWalk
      rw [hv]
      exact hrun
    refine ⟨b, out, hwalk, by rw [hlen, List.length_set], ?_, ?_, ?_, ?_⟩
    · intro k hk
      have hk1 : k ∉ tl := fun h => hk (List.mem_cons_of_mem i h)
      have hki : i ≠ k := fun h => hk (h ▸ List.mem_cons_self i tl)
      rw [hunt k hk1, List.get?_set_ne v a hki]
    · intro h0
      show b.get? i = some v
      rw [hunt i hitl, List.get?_set_eq_of_lt v hi]
    · intro j hj
      cases j with
      | zero =>
        have h0' : 0 < tl.length := by
          simpa using hj
        show b.get? (tl.get ⟨0, h0'⟩) = a.get? i
        rw [hhead h0', hv]
      | succ j' =>
        have hj' : j' + 1 < tl.length := by
          simpa using hj
        show b.get? (tl.get ⟨j' + 1, hj'⟩) = a.get? (tl.get ⟨j', by omega⟩)
        rw [hstep j' hj']
        have hne : i ≠ tl.get ⟨j', by omega⟩ := by
          intro h
          exact hitl (h ▸ List.get_mem tl j' (by omega))
        rw [List.get?_set_ne v a hne]
    · intro hne
      cases tl with
      | nil =>
        have hba : b = a.set i v ∧ out = a.get ⟨i, hi⟩ := by
          have h1 : some ((a.set i v), a.get ⟨i, hi⟩) = some (b, out) := hrun
          injection h1 with h1
          exact ⟨(congrArg Prod.fst h1).symm, (congrArg Prod.snd h1).symm⟩
        show a.get? i = some out
        rw [hba.2, hv]
      | cons y ys =>
        have hne' : (y :: ys) ≠ ([] : List Nat) := List.cons_ne_nil y ys
        rw [List.getLast_cons hne']
        have hmem : (y :: ys).getLast hne' ∈ (y :: ys) := List.getLast_mem hne'
        have hnei : i ≠ (y :: ys).getLast hne' := by
          intro h
          exact hitl (h ▸ hmem)
        rw [← List.get?_set_ne v a hnei]
        exact hlast hne'

theorem carryWalk_perm :
    ∀ (is : List Nat) (a : List α) (v : α) (b : List α) (out : α),
      carryWalk a v is = some (b, out) → (out :: b).Perm (v :: a) := by
  intro is
  induction is with
  | nil =>
    intro a v b out h
    have h1 : some (a, v) = some (b, out) := h
    rw [Option.some.injEq, Prod.mk.injEq] at h1
    obtain ⟨ha, hv⟩ := h1
    rw [← ha, ← hv]
  | cons i tl ih =>
    intro a v b out h
    cases hv : a.get? i with
    | none =>
      unfold carryWalk at h
      rw [hv] at h
      exact Option.noConfusion h
    | some temp =>
      unfold carryWalk at h
      rw [hv] at h
      have hperm := ih (a.set i v) temp b out h
      have hi : i < a.length := by
        rcases List.get?_eq_some.mp hv with ⟨hlt, _⟩
        exact hlt
      have hget : a.get ⟨i, hi⟩ = temp := by
        rcases List.get?_eq_some.mp hv with ⟨hlt, he⟩
        exact he
      have hswap : (temp :: a.set i v).Perm (v :: a) := by
        rw [← hget]
        exact set_cons_perm a i v hi
      exact hperm.trans hswap

/-! ## Chain and getLast utilities for the ring walk -/

theorem chain_of_map_range' {β : Type} {R : β → β → Prop} (f : Nat → β) :
    ∀ (k a : Nat) (x : β), (0 < k → R x (f a)) →
      (∀ i : Nat, a ≤ i → i + 1 < a + k → R (f i) (f (i + 1))) →
      List.Chain R x ((List.range' a k).map f) := by
  intro k
  induction k with
  | zero =>
    intro a x _ _
    exact List.Chain.nil
  | succ m ih =>
    intro a x h0 hstep
    rw [List.range'_succ, List.map_cons]
    refine List.Chain.cons (h0 (Nat.succ_pos m)) ?_
    exact ih (a + 1) (f a)
      (fun hm => hstep a (Nat.le_refl a) (by omega))
      (fun i h1 h2 => hstep i (by omega) (by omega))

theorem range'_concat_one (a k : Nat) :
    List.range' a (k + 1) = List.range' a k ++ [a + k] := by
  have h := @List.range'_concat 1 a k
  simpa using h

theorem chain_of_map_range'_rev {β : Type} {R : β → β → Prop} (f : Nat → β) :
    ∀ (k a : Nat) (x : β), (0 < k → R x (f (a + k - 1))) →
      (∀ i : Nat, a < i → i < a + k → R (f i) (f (i - 1))) →
      List.Chain R x ((List.range' a k).reverse.map f) := by
  intro k
  induction k with
  | zero =>
    intro a x _ _
    exact List.Chain.nil
  | succ m ih =>
    intro a x h0 hstep
    rw [range'_concat_one, List.reverse_append, List.reverse_singleton,
      List.singleton_append, List.map_cons]
    refine List.Chain.cons (by simpa using h0 (Nat.succ_pos m)) ?_
    exact ih a (f (a + m))
      (fun hm => hstep (a + m) (by omega) (by omega))
      (fun i h1 h2 => hstep i h1 (by omega))

theorem chain_append_of_chain {β : Type} {R : β → β → Prop} :
    ∀ (l1 : List β) (x : β) (l2 : List β), List.Chain R x l1 →
      List.Chain R ((x :: l1).getLast (List.cons_ne_nil x l1)) l2 →
      List.Chain R x (l1 ++ l2) := by
  intro l1
  induction l1 with
  | nil =>
    intro x l2 _ h2
    exact h2
  | cons y t ih =>
    intro x l2 h1 h2
    obtain ⟨hxy, hyt⟩ := List.chain_cons.mp h1
    rw [List.cons_append]
    refine List.Chain.cons hxy (ih y l2 hyt ?_)
    rwa [List.getLast_cons (List.cons_ne_nil y t)] at h2

theorem getLast_append_right {β : Type} :
    ∀ (l1 l2 : List β) (h2 : l2 ≠ []) (h : l1 ++ l2 ≠ []),
      (l1 ++ l2).getLast h = l2.getLast h2 := by
  intro l1
  induction l1 with
  | nil =>
    intro l2 h2 h
    rfl
  | cons x t ih =>
    intro l2 h2 h
    have ht : t ++ l2 ≠ [] := by
      intro hcon
      rcases List.append_eq_nil.mp hcon with ⟨_, h0⟩
      exact h2 h0
    show (x :: (t ++ l2)).getLast (List.cons_ne_nil x (t ++ l2)) = l2.getLast h2
    rw [List.getLast_cons ht]
    exact ih l2 h2 ht

theorem getLast_congr {β : Type} (l1 l2 : List β) (h : l1 = l2) (h1 : l1 ≠ []) :
    l1.getLast h1 = l2.getLast (h ▸ h1) := by
  subst h
  rfl

theorem getLast_map_range' {β : Type} (f : Nat → β) (k a : Nat) (hk : 0 < k)
    (hne : (List.range' a k).map f ≠ []) :
    ((List.range' a k).map f).getLast hne = f (a + k - 1) := by
  cases k with
  | zero => exact absurd hk (by omega)
  | succ m =>
    have he : (List.range' a (m + 1)).map f
        = (List.range' a m).map f ++ [f (a + m)] := by
      rw [range'_concat_one, List.map_append]
      rfl
    rw [getLast_congr _ _ he hne,
      getLast_append_right ((List.range' a m).map f) [f (a + m)] (by simp)]
    rw [show List.getLast [f (a + m)] (by simp) = f (a + m) from rfl]
    have hm : a + m = a + (m + 1) - 1 := by omega
    rw [hm]

theorem getLast_map_range'_rev {β : Type} (f : Nat → β) (k a : Nat) (hk : 0 < k)
    (hne : (List.range' a k).reverse.map f ≠ []) :
    ((List.range' a k).reverse.map f).getLast hne = f a := by
  cases k with
  | zero => exact absurd hk (by omega)
  | succ m =>
    have he : (List.range' a (m + 1)).reverse.map f
        = (List.range' (a + 1) m).reverse.map f ++ [f a] := by
      rw [List.range'_succ, List.reverse_cons, List.map_append]
      rfl
    rw [getLast_congr _ _ he hne,
      getLast_append_right ((List.range' (a + 1) m).reverse.map f) [f a] (by simp)]
    rfl

/-! ## Geometry of the ring walk -/

theorem layer_facts (n layer : Nat) (h2 : 2 ≤ n) (hl : layer < n / 2) :
    layer < n - 1 - layer ∧ n - 1 - layer < n := by
  omega

theorem mem_ringWalk_iff (n layer r c : Nat) (h2 : 2 ≤ n) (hl : layer < n / 2) :
    (r, c) ∈ ringWalk n layer ↔ onRing n layer r c := by
  obtain ⟨hfl, hln⟩ := layer_facts n layer h2 hl
  unfold ringWalk onRing
  simp only [List.mem_append, List.mem_map, List.mem_reverse, List.mem_range'_1,
    Prod.mk.injEq]
  constructor
  · rintro (((⟨i, ⟨hi1, hi2⟩, hr, hc⟩ | ⟨i, ⟨hi1, hi2⟩, hr, hc⟩) |
      ⟨i, ⟨hi1, hi2⟩, hr, hc⟩) | ⟨i, ⟨hi1, hi2⟩, hr, hc⟩) <;> omega
  · intro h
    by_cases hr1 : r = layer
    · exact Or.inl (Or.inl (Or.inl ⟨c, ⟨by omega, by omega⟩, by omega, rfl⟩))
    · by_cases hc2 : c = n - 1 - layer
      · exact Or.inl (Or.inl (Or.inr ⟨r, ⟨by omega, by omega⟩, rfl, by omega⟩))
      · by_cases hr2 : r = n - 1 - layer
        · exact Or.inl (Or.inr ⟨c, ⟨by omega, by omega⟩, by omega, rfl⟩)
        · exact Or.inr ⟨r, ⟨by omega, by omega⟩, rfl, by omega⟩

theorem ringWalk_nodup (n layer : Nat) (h2 : 2 ≤ n) (hl : layer < n / 2) :
    (ringWalk n layer).Nodup := by
  obtain ⟨hfl, hln⟩ := layer_facts n layer h2 hl
  unfold ringWalk
  have hinj1 : ∀ x : Nat, ∀ y : Nat, ((layer, x) : Nat × Nat) = (layer, y) → x = y := by
    intro x y h
    simpa using h
  have hinj2 : ∀ x : Nat, ∀ y : Nat,
      ((x, n - 1 - layer) : Nat × Nat) = (y, n - 1 - layer) → x = y := by
    intro x y h
    simpa using h
  have hinj3 : ∀ x : Nat, ∀ y : Nat,
      ((n - 1 - layer, x) : Nat × Nat) = (n - 1 - layer, y) → x = y := by
    intro x y h
    simpa using h
  have hinj4 : ∀ x : Nat, ∀ y : Nat, ((x, layer) : Nat × Nat) = (y, layer) → x = y := by
    intro x y h
    simpa using h
  have hndA : ((List.range' layer (n - 1 - layer + 1 - layer)).map
      fun col => ((layer, col) : Nat × Nat)).Nodup :=
    List.Nodup.map_on (fun x _ y _ h => hinj1 x y h) (List.nodup_range' _ _)
  have hndB : ((List.range' (layer + 1) (n - 1 - layer - layer)).map
      fun row => ((row, n - 1 - layer) : Nat × Nat)).Nodup :=
    List.Nodup.map_on (fun x _ y _ h => hinj2 x y h) (List.nodup_range' _ _)
  have hndC : ((List.range' layer (n - 1 - layer - layer)).reverse.map
      fun col => ((n - 1 - layer, col) : Nat × Nat)).Nodup :=
    List.Nodup.map_on (fun x _ y _ h => hinj3 x y h)
      (List.nodup_reverse.mpr (List.nodup_range' _ _))
  have hndD : ((List.range' (layer + 1) (n - 1 - layer - layer - 1)).reverse.map
      fun row => ((row, layer) : Nat × Nat)).Nodup :=
    List.Nodup.map_on (fun x _ y _ h => hinj4 x y h)
      (List.nodup_reverse.mpr (List.nodup_range' _ _))
  have hdAB : ((List.range' layer (n - 1 - layer + 1 - layer)).map
      fun col => ((layer, col) : Nat × Nat)).Disjoint
      ((List.range' (layer + 1) (n - 1 - layer - layer)).map
        fun row => ((row, n - 1 - layer) : Nat × Nat)) := by
    intro p h1 h2'
    simp only [List.mem_map, List.mem_range'_1] at h1 h2'
    rcases h1 with ⟨i, hi, rfl⟩
    rcases h2' with ⟨j, hj, he⟩
    rw [Prod.mk.injEq] at he
    omega
  have hdABC : (((List.range' layer (n - 1 - layer + 1 - layer)).map
      fun col => ((layer, col) : Nat × Nat)) ++
      ((List.range' (layer + 1) (n - 1 - layer - layer)).map
        fun row => ((row, n - 1 - layer) : Nat × Nat))).Disjoint
      ((List.range' layer (n - 1 - layer - layer)).reverse.map
        fun col => ((n - 1 - layer, col) : Nat × Nat)) := by
    intro p h1 h2'
    simp only [List.mem_append, List.mem_map, List.mem_reverse, List.mem_range'_1] at h1 h2'
    rcases h2' with ⟨j, hj, rfl⟩
    rcases h1 with ⟨i, hi, he⟩ | ⟨i, hi, he⟩ <;> rw [Prod.mk.injEq] at he <;> omega
  have hdABCD : ((((List.range' layer (n - 1 - layer + 1 - layer)).map
      fun col => ((layer, col) : Nat × Nat)) ++
      ((List.range' (layer + 1) (n - 1 - layer - layer)).map
        fun row => ((row, n - 1 - layer) : Nat × Nat))) ++
      ((List.range' layer (n - 1 - layer - layer)).reverse.map
        fun col => ((n - 1 - layer, col) : Nat × Nat))).Disjoint
      ((List.range' (layer + 1) (n - 1 - layer - layer - 1)).reverse.map
        fun row => ((row, layer) : Nat × Nat)) := by
    intro p h1 h2'
    simp only [List.mem_append, List.mem_map, List.mem_reverse, List.mem_range'_1] at h1 h2'
    rcases h2' with ⟨j, hj, rfl⟩
    rcases h1 with (⟨i, hi, he⟩ | ⟨i, hi, he⟩) | ⟨i, hi, he⟩ <;>
      rw [Prod.mk.injEq] at he <;> omega
  exact List.Nodup.append
    (List.Nodup.append (List.Nodup.append hndA hndB hdAB) hndC hdABC) hndD hdABCD

theorem onRing_coords_lt (n layer r c : Nat) (h2 : 2 ≤ n) (hl : layer < n / 2)
    (h : onRing n layer r c) : r < n ∧ c < n := by
  unfold onRing at h
  omega

theorem idx_lt_sq (n r c : Nat) (hr : r < n) (hc : c < n) : idx n r c < n * n := by
  unfold idx
  have h1 : r * n + c < (r + 1) * n := by
    rw [Nat.succ_mul]
    exact Nat.add_lt_add_left hc (r * n)
  have h2 : (r + 1) * n ≤ n * n := Nat.mul_le_mul_right n hr
  exact Nat.lt_of_lt_of_le h1 h2

theorem idx_inj (n r c q d : Nat) (hc : c < n) (hd : d < n)
    (h : idx n r c = idx n q d) : r = q ∧ c = d := by
  unfold idx at h
  have key : ∀ r1 c1 q1 d1 : Nat, c1 < n → r1 < q1 → r1 * n + c1 < q1 * n + d1 := by
    intro r1 c1 q1 d1 hc1 hlt
    have h1 : r1 * n + c1 < (r1 + 1) * n := by
      rw [Nat.succ_mul]
      exact Nat.add_lt_add_left hc1 (r1 * n)
    have h2 : (r1 + 1) * n ≤ q1 * n := Nat.mul_le_mul_right n hlt
    exact Nat.lt_of_lt_of_le h1 (Nat.le_trans h2 (Nat.le_add_right _ _))
  have hrq : r = q := by
    rcases Nat.lt_trichotomy r q with hlt | he | hgt
    · exact absurd h (Nat.ne_of_lt (key r c q d hc hlt))
    · exact he
    · exact absurd h.symm (Nat.ne_of_lt (key q d r c hd hgt))
  subst hrq
  exact ⟨rfl, Nat.add_left_cancel h⟩

theorem ccwNeighbor_eq (n layer r c : Nat) :
    ccwNeighbor n layer (r, c) =
      if r = layer then
        (if c = layer then (layer + 1, layer) else (layer, c - 1))
      else if c = n - 1 - layer then (r - 1, n - 1 - layer)
      else if r = n - 1 - layer then (n - 1 - layer, c + 1)
      else (r + 1, c) := rfl

theorem ccw_top_left {n layer : Nat} :
    ccwNeighbor n layer (layer, layer) = (layer + 1, layer) := by
  rw [ccwNeighbor_eq, if_pos rfl, if_pos rfl]

theorem ccw_top {n layer c : Nat} (h : layer < c) :
    ccwNeighbor n layer (layer, c) = (layer, c - 1) := by
  rw [ccwNeighbor_eq, if_pos rfl, if_neg (by omega)]

theorem ccw_right {n layer r : Nat} (h1 : layer < r) :
    ccwNeighbor n layer (r, n - 1 - layer) = (r - 1, n - 1 - layer) := by
  rw [ccwNeighbor_eq, if_neg (by omega), if_pos rfl]

theorem ccw_bottom {n layer c : Nat} (hfl : layer < n - 1 - layer) (h2 : c < n - 1 - layer) :
    ccwNeighbor n layer (n - 1 - layer, c) = (n - 1 - layer, c + 1) := by
  rw [ccwNeighbor_eq, if_neg (by omega), if_neg (by omega), if_pos rfl]

theorem ccw_left {n layer r : Nat} (hfl : layer < n - 1 - layer)
    (h1 : layer < r) (h2 : r < n - 1 - layer) :
    ccwNeighbor n layer (r, layer) = (r + 1, layer) := by
  rw [ccwNeighbor_eq, if_neg (by omega), if_neg (by omega), if_neg (by omega)]

theorem onRing_layer_eq (n l1 l2 r c : Nat) (h : onRing n l1 r c)
    (h2 : onRing n l2 r c) : l1 = l2 := by
  unfold onRing at h h2
  omega

theorem onRing_ccwNeighbor (n layer r c : Nat) (h2 : 2 ≤ n) (hl : layer < n / 2)
    (h : onRing n layer r c) :
    onRing n layer (ccwNeighbor n layer (r, c)).1 (ccwNeighbor n layer (r, c)).2 := by
  obtain ⟨hfl, hln⟩ := layer_facts n layer h2 hl
  unfold onRing at h
  rw [ccwNeighbor_eq]
  split_ifs with ha hb hc2 hd <;> unfold onRing <;> dsimp only <;> omega

theorem center_not_onRing (n l : Nat) (hodd : n % 2 = 1) (hl : l < n / 2) :
    ¬ onRing n l (n / 2) (n / 2) := by
  unfold onRing
  omega

/-! ## The ring walk visits each cell right after its counter-clockwise
neighbor -/

theorem chainA (n layer : Nat) (h2 : 2 ≤ n) (hl : layer < n / 2) :
    List.Chain (fun q p => q = ccwNeighbor n layer p) (layer + 1, layer)
      ((List.range' layer (n - 1 - layer + 1 - layer)).map fun col => (layer, col)) := by
  obtain ⟨hfl, hln⟩ := layer_facts n layer h2 hl
  apply chain_of_map_range'
  · intro _
    rw [ccw_top_left]
  · intro i h1 hi2
    rw [ccw_top (show layer < i + 1 by omega)]
    simp only [Prod.mk.injEq, true_and, and_true]
    omega

theorem chainB (n layer : Nat) (h2 : 2 ≤ n) (hl : layer < n / 2) :
    List.Chain (fun q p => q = ccwNeighbor n layer p) (layer, n - 1 - layer)
      ((List.range' (layer + 1) (n - 1 - layer - layer)).map
        fun row => (row, n - 1 - layer)) := by
  obtain ⟨hfl, hln⟩ := layer_facts n layer h2 hl
  apply chain_of_map_range'
  · intro _
    rw [ccw_right (show layer < layer + 1 by omega)]
    simp only [Prod.mk.injEq, true_and, and_true]
    omega
  · intro i h1 hi2
    rw [ccw_right (show layer < i + 1 by omega)]
    simp only [Prod.mk.injEq, true_and, and_true]
    omega

theorem chainC (n layer : Nat) (h2 : 2 ≤ n) (hl : layer < n / 2) :
    List.Chain (fun q p => q = ccwNeighbor n layer p) (n - 1 - layer, n - 1 - layer)
      ((List.range' layer (n - 1 - layer - layer)).reverse.map
        fun col => (n - 1 - layer, col)) := by
  obtain ⟨hfl, hln⟩ := layer_facts n layer h2 hl
  apply chain_of_map_range'_rev
  · intro hk
    rw [ccw_bottom hfl (show layer + (n - 1 - layer - layer) - 1 < n - 1 - layer by omega)]
    simp only [Prod.mk.injEq, true_and, and_true]
    omega
  · intro i hi1 hi2
    rw [ccw_bottom hfl (show i - 1 < n - 1 - layer by omega)]
    simp only [Prod.mk.injEq, true_and, and_true]
    omega

theorem chainD (n layer : Nat) (h2 : 2 ≤ n) (hl : layer < n / 2) :
    List.Chain (fun q p => q = ccwNeighbor n layer p) (n - 1 - layer, layer)
      ((List.range' (layer + 1) (n - 1 - layer - layer - 1)).reverse.map
        fun row => (row, layer)) := by
  obtain ⟨hfl, hln⟩ := layer_facts n layer h2 hl
  apply chain_of_map_range'_rev
  · intro hk
    rw [ccw_left hfl (show layer < layer + 1 + (n - 1 - layer - layer - 1) - 1 by omega)
      (show layer + 1 + (n - 1 - layer - layer - 1) - 1 < n - 1 - layer by omega)]
    simp only [Prod.mk.injEq, true_and, and_true]
    omega
  · intro i hi1 hi2
    rw [ccw_left hfl (show layer < i - 1 by omega) (show i - 1 < n - 1 - layer by omega)]
    simp only [Prod.mk.injEq, true_and, and_true]
    omega

theorem segA_ne_nil (n layer : Nat) (h2 : 2 ≤ n) (hl : layer < n / 2) :
    ((List.range' layer (n - 1 - layer + 1 - layer)).map
      fun col => ((layer, col) : Nat × Nat)) ≠ [] := by
  intro hcon
  have hlen := congrArg List.length hcon
  simp only [List.length_map, List.length_range', List.length_nil] at hlen
  omega

theorem segB_ne_nil (n layer : Nat) (h2 : 2 ≤ n) (hl : layer < n / 2) :
    ((List.range' (layer + 1) (n - 1 - layer - layer)).map
      fun row => ((row, n - 1 - layer) : Nat × Nat)) ≠ [] := by
  intro hcon
  have hlen := congrArg List.length hcon
  simp only [List.length_map, List.length_range', List.length_nil] at hlen
  omega

theorem segC_ne_nil (n layer : Nat) (h2 : 2 ≤ n) (hl : layer < n / 2) :
    ((List.range' layer (n - 1 - layer - layer)).reverse.map
      fun col => ((n - 1 - layer, col) : Nat × Nat)) ≠ [] := by
  intro hcon
  have hlen := congrArg List.length hcon
  simp only [List.length_map, List.length_reverse, List.length_range',
    List.length_nil] at hlen
  omega

theorem ringWalk_chain (n layer : Nat) (h2 : 2 ≤ n) (hl : layer < n / 2) :
    List.Chain (fun q p => q = ccwNeighbor n layer p) (layer + 1, layer)
      (ringWalk n layer) := by
  obtain ⟨hfl, hln⟩ := layer_facts n layer h2 hl
  have hAne := segA_ne_nil n layer h2 hl
  have hBne := segB_ne_nil n layer h2 hl
  have hCne := segC_ne_nil n layer h2 hl
  unfold ringWalk
  apply chain_append_of_chain
  · apply chain_append_of_chain
    · apply chain_append_of_chain
      · exact chainA n layer h2 hl
      · rw [List.getLast_cons hAne, getLast_map_range' _ _ _ (by omega) hAne]
        rw [show ((layer, layer + (n - 1 - layer + 1 - layer) - 1) : Nat × Nat)
          = (layer, n - 1 - layer) by simp only [Prod.mk.injEq, true_and, and_true]; omega]
        exact chainB n layer h2 hl
    · have hABne : (((List.range' layer (n - 1 - layer + 1 - layer)).map
          fun col => ((layer, col) : Nat × Nat)) ++
          ((List.range' (layer + 1) (n - 1 - layer - layer)).map
            fun row => ((row, n - 1 - layer) : Nat × Nat))) ≠ [] := by
        intro hcon
        exact hAne (List.append_eq_nil.mp hcon).1
      rw [List.getLast_cons hABne, getLast_append_right _ _ hBne,
        getLast_map_range' _ _ _ (by omega) hBne]
      rw [show ((layer + 1 + (n - 1 - layer - layer) - 1, n - 1 - layer) : Nat × Nat)
        = (n - 1 - layer, n - 1 - layer) by simp only [Prod.mk.injEq, true_and, and_true]; omega]
      exact chainC n layer h2 hl
  · have hABCne : ((((List.range' layer (n - 1 - layer + 1 - layer)).map
        fun col => ((layer, col) : Nat × Nat)) ++
        ((List.range' (layer + 1) (n - 1 - layer - layer)).map
          fun row => ((row, n - 1 - layer) : Nat × Nat))) ++
        ((List.range' layer (n - 1 - layer - layer)).reverse.map
          fun col => ((n - 1 - layer, col) : Nat × Nat))) ≠ [] := by
      intro hcon
      exact hCne (List.append_eq_nil.mp hcon).2
    rw [List.getLast_cons hABCne, getLast_append_right _ _ hCne,
      getLast_map_range'_rev _ _ _ (by omega) hCne]
    exact chainD n layer h2 hl

theorem ringWalk_ne_nil (n layer : Nat) (h2 : 2 ≤ n) (hl : layer < n / 2) :
    ringWalk n layer ≠ [] := by
  intro hcon
  unfold ringWalk at hcon
  have hAne := segA_ne_nil n layer h2 hl
  have h1 := (List.append_eq_nil.mp hcon).1
  have h2' := (List.append_eq_nil.mp h1).1
  exact hAne (List.append_eq_nil.mp h2').1

theorem ringWalk_getLast (n layer : Nat) (h2 : 2 ≤ n) (hl : layer < n / 2)
    (hne : ringWalk n layer ≠ []) :
    (ringWalk n layer).getLast hne = (layer + 1, layer) := by
  obtain ⟨hfl, hln⟩ := layer_facts n layer h2 hl
  have hCne := segC_ne_nil n layer h2 hl
  rw [getLast_congr _ _ (show ringWalk n layer
    = (((List.range' layer (n - 1 - layer + 1 - layer)).map
        fun col => ((layer, col) : Nat × Nat)) ++
      ((List.range' (layer + 1) (n - 1 - layer - layer)).map
        fun row => ((row, n - 1 - layer) : Nat × Nat)) ++
      ((List.range' layer (n - 1 - layer - layer)).reverse.map
        fun col => ((n - 1 - layer, col) : Nat × Nat))) ++
      ((List.range' (layer + 1) (n - 1 - layer - layer - 1)).reverse.map
        fun row => ((row, layer) : Nat × Nat)) from rfl) hne]
  by_cases hD : n - 1 - layer - layer - 1 = 0
  · have hDnil : ((List.range' (layer + 1) (n - 1 - layer - layer - 1)).reverse.map
        fun row => ((row, layer) : Nat × Nat)) = [] := by
      rw [hD]
      rfl
    rw [getLast_congr _ _ (by rw [hDnil, List.append_nil]) _]
    rw [getLast_append_right _ _ hCne,
      getLast_map_range'_rev _ _ _ (by omega) hCne]
    simp only [Prod.mk.injEq, true_and, and_true]
    omega
  · have hDne : ((List.range' (layer + 1) (n - 1 - layer - layer - 1)).reverse.map
        fun row => ((row, layer) : Nat × Nat)) ≠ [] := by
      intro hcon
      have hlen := congrArg List.length hcon
      simp only [List.length_map, List.length_reverse, List.length_range',
        List.length_nil] at hlen
      omega
    rw [getLast_append_right _ _ hDne,
      getLast_map_range'_rev _ _ _ (by omega) hDne]

/-! ## Specification of a single ring rotation -/

theorem rotate_ring_spec (a : List α) (n layer : Nat) (h2 : 2 ≤ n) (hl : layer < n / 2)
    (hsz : a.length = n * n) :
    ∃ b, rotate_ring_clockwise a n layer = some b ∧
      b.length = a.length ∧
      b.Perm a ∧
      (∀ r c : Nat, onRing n layer r c →
        b.get? (idx n r c) =
          a.get? (idx n (ccwNeighbor n layer (r, c)).1 (ccwNeighbor n layer (r, c)).2)) ∧
      (∀ r c : Nat, r < n → c < n → ¬ onRing n layer r c →
        b.get? (idx n r c) = a.get? (idx n r c)) := by
  obtain ⟨hfl, hln⟩ := layer_facts n layer h2 hl
  have hseed_lt : idx n (layer + 1) layer < a.length := by
    rw [hsz]
    exact idx_lt_sq n (layer + 1) layer (by omega) (by omega)
  have hseed : a.get? (idx n (layer + 1) layer)
      = some (a.get ⟨idx n (layer + 1) layer, hseed_lt⟩) :=
    List.get?_eq_get hseed_lt
  have hWf_lt : ∀ i ∈ (ringWalk n layer).map (fun p => idx n p.1 p.2), i < a.length := by
    intro i hi
    rw [hsz]
    simp only [List.mem_map] at hi
    obtain ⟨⟨r, c⟩, hp, rfl⟩ := hi
    have hon := (mem_ringWalk_iff n layer r c h2 hl).mp hp
    have hlt := onRing_coords_lt n layer r c h2 hl hon
    exact idx_lt_sq n r c hlt.1 hlt.2
  have hWf_nd : ((ringWalk n layer).map fun p => idx n p.1 p.2).Nodup := by
    refine List.Nodup.map_on ?_ (ringWalk_nodup n layer h2 hl)
    rintro ⟨r, c⟩ hx ⟨q, d⟩ hy h
    have honx := (mem_ringWalk_iff n layer r c h2 hl).mp hx
    have hony := (mem_ringWalk_iff n layer q d h2 hl).mp hy
    have hltx := onRing_coords_lt n layer r c h2 hl honx
    have hlty := onRing_coords_lt n layer q d h2 hl hony
    obtain ⟨he1, he2⟩ := idx_inj n r c q d hltx.2 hlty.2 h
    rw [he1, he2]
  obtain ⟨b, out, hrun, hlen, hunt, hhead, hstep, hlast⟩ :=
    carryWalk_spec ((ringWalk n layer).map fun p => idx n p.1 p.2) a
      (a.get ⟨idx n (layer + 1) layer, hseed_lt⟩) hWf_nd hWf_lt
  have heq : rotate_ring_clockwise a n layer = some b := by
    unfold rotate_ring_clockwise
    rw [hseed]
    show (match carryWalk a (a.get ⟨idx n (layer + 1) layer, hseed_lt⟩)
        ((ringWalk n layer).map fun p => idx n p.1 p.2) with
      | none => none
      | some (data', _) => some data') = some b
    rw [hrun]
  have hWne : ringWalk n layer ≠ [] := ringWalk_ne_nil n layer h2 hl
  have hWfne : ((ringWalk n layer).map fun p => idx n p.1 p.2) ≠ [] := by
    intro hcon
    exact hWne (List.map_eq_nil.mp hcon)
  have hout : out = a.get ⟨idx n (layer + 1) layer, hseed_lt⟩ := by
    have hlast' := hlast hWfne
    rw [List.getLast_map _ _ hWfne] at hlast'
    rw [ringWalk_getLast n layer h2 hl] at hlast'
    dsimp only at hlast'
    rw [hseed] at hlast'
    injection hlast' with h
    exact h.symm
  have hperm : b.Perm a := by
    have hp0 := carryWalk_perm _ a _ b out hrun
    rw [hout] at hp0
    exact List.Perm.cons_inv hp0
  have hchain := ringWalk_chain n layer h2 hl
  rw [List.chain_iff_get] at hchain
  obtain ⟨hch0, hchS⟩ := hchain
  refine ⟨b, heq, hlen, hperm, ?_, ?_⟩
  · intro r c hon
    have hmem : (r, c) ∈ ringWalk n layer := (mem_ringWalk_iff n layer r c h2 hl).mpr hon
    obtain ⟨⟨j, hj⟩, hget⟩ := List.mem_iff_get.mp hmem
    have hjf : j < ((ringWalk n layer).map fun p => idx n p.1 p.2).length := by
      rw [List.length_map]
      exact hj
    have hgetq : (ringWalk n layer).get? j = some (r, c) := by
      rw [List.get?_eq_get hj, hget]
    have hgetf : ((ringWalk n layer).map fun p => idx n p.1 p.2).get ⟨j, hjf⟩
        = idx n r c := by
      rw [List.get_map]
      exact congrArg (fun p => idx n p.1 p.2) hget
    cases j with
    | zero =>
      have hccw : ccwNeighbor n layer (r, c) = (layer + 1, layer) :=
        ((hch0 (by omega)).trans (congrArg (ccwNeighbor n layer) hget)).symm
      have hb : b.get? (idx n r c)
          = some (a.get ⟨idx n (layer + 1) layer, hseed_lt⟩) := by
        rw [← hgetf]
        exact hhead (by omega)
      exact hb.trans
        (((congrArg (fun p => a.get? (idx n p.1 p.2)) hccw).trans hseed).symm)
    | succ j' =>
      have hj' : j' < (ringWalk n layer).length := by omega
      have hccw : (ringWalk n layer).get ⟨j', hj'⟩ = ccwNeighbor n layer (r, c) :=
        (hchS j' (by omega)).trans (congrArg (ccwNeighbor n layer) hget)
      have hjf' : j' < ((ringWalk n layer).map fun p => idx n p.1 p.2).length := by
        rw [List.length_map]
        exact hj'
      have hgetf' : ((ringWalk n layer).map fun p => idx n p.1 p.2).get ⟨j', hjf'⟩
          = idx n (ccwNeighbor n layer (r, c)).1 (ccwNeighbor n layer (r, c)).2 := by
        rw [List.get_map]
        exact congrArg (fun p => idx n p.1 p.2) hccw
      have hb : b.get? (idx n r c)
          = a.get? (((ringWalk n layer).map fun p => idx n p.1 p.2).get ⟨j', hjf'⟩) := by
        rw [← hgetf]
        exact hstep j' hjf
      exact hb.trans (congrArg (a.get?) hgetf')
  · intro r c hr hc hnot
    have hnotin : idx n r c ∉ (ringWalk n layer).map fun p => idx n p.1 p.2 := by
      intro hin
      simp only [List.mem_map] at hin
      obtain ⟨⟨q, d⟩, hq, he⟩ := hin
      have honq := (mem_ringWalk_iff n layer q d h2 hl).mp hq
      have hltq := onRing_coords_lt n layer q d h2 hl honq
      obtain ⟨e1, e2⟩ := idx_inj n q d r c hltq.2 hc he
      rw [e1, e2] at honq
      exact hnot honq
    exact hunt _ hnotin

/-! ## Specification of the full rotation -/

theorem rotateLayers_spec (n : Nat) (h2 : 2 ≤ n) :
    ∀ (ls : List Nat) (a : List α), a.length = n * n → (∀ l ∈ ls, l < n / 2) →
      ls.Nodup →
      ∃ b, rotateLayers a n ls = some b ∧ b.length = a.length ∧ b.Perm a ∧
        (∀ layer r c : Nat, layer ∈ ls → onRing n layer r c →
          b.get? (idx n r c) =
            a.get? (idx n (ccwNeighbor n layer (r, c)).1 (ccwNeighbor n layer (r, c)).2)) ∧
        (∀ r c : Nat, r < n → c < n → (∀ l ∈ ls, ¬ onRing n l r c) →
          b.get? (idx n r c) = a.get? (idx n r c)) := by
  intro ls
  induction ls with
  | nil =>
    intro a hsz _ _
    exact ⟨a, rfl, rfl, List.Perm.refl a,
      fun layer r c h => absurd h (List.not_mem_nil layer),
      fun r c _ _ _ => rfl⟩
  | cons l ls ih =>
    intro a hsz hmem hnd
    have hl : l < n / 2 := hmem l (List.mem_cons_self l ls)
    obtain ⟨hlnotin, hndtl⟩ := List.nodup_cons.mp hnd
    obtain ⟨a1, heq1, hlen1, hperm1, hring1, hunt1⟩ := rotate_ring_spec a n l h2 hl hsz
    have hsz1 : a1.length = n * n := by
      rw [hlen1, hsz]
    obtain ⟨b, heq2, hlen2, hperm2, hring2, hunt2⟩ :=
      ih a1 hsz1 (fun x hx => hmem x (List.mem_cons_of_mem l hx)) hndtl
    have heq : rotateLayers a n (l :: ls) = some b := by
      unfold rotateLayers
      rw [heq1]
      exact heq2
    refine ⟨b, heq, by rw [hlen2, hlen1], hperm2.trans hperm1, ?_, ?_⟩
    · intro layer r c hin hon
      rcases List.mem_cons.mp hin with hcase | hcase
      · subst hcase
        have hlt := onRing_coords_lt n layer r c h2 hl hon
        have hnotl : ∀ x ∈ ls, ¬ onRing n x r c := by
          intro x hx hcon
          have hel := onRing_layer_eq n layer x r c hon hcon
          exact hlnotin (hel ▸ hx)
        have hb1 : b.get? (idx n r c) = a1.get? (idx n r c) :=
          hunt2 r c hlt.1 hlt.2 hnotl
        rw [hb1]
        exact hring1 r c hon
      · have hlay : layer < n / 2 := hmem layer (List.mem_cons_of_mem l hcase)
        have hon' := onRing_ccwNeighbor n layer r c h2 hlay hon
        have hlt' := onRing_coords_lt n layer _ _ h2 hlay hon'
        have hnotonl : ¬ onRing n l (ccwNeighbor n layer (r, c)).1
            (ccwNeighbor n layer (r, c)).2 := by
          intro hcon
          have hel := onRing_layer_eq n layer l _ _ hon' hcon
          exact hlnotin (hel ▸ hcase)
        have hstep2 := hring2 layer r c hcase hon
        rw [hstep2]
        exact hunt1 _ _ hlt'.1 hlt'.2 hnotonl
    · intro r c hr hc hnone
      have hb1 : b.get? (idx n r c) = a1.get? (idx n r c) :=
        hunt2 r c hr hc (fun x hx => hnone x (List.mem_cons_of_mem l hx))
      rw [hb1]
      exact hunt1 r c hr hc (hnone l (List.mem_cons_self l ls))

theorem rotate_right_empty_eq (a : List α) (h0 : a.length = 0) :
    rotate_right a = some (Except.error RotationError.Empty, a) := by
  unfold rotate_right
  rw [if_pos h0]

theorem rotate_right_notsquare_eq (a : List α) (h0 : ¬ a.length = 0)
    (hsq : square_len a.length = none) :
    rotate_right a = some (Except.error RotationError.NotSquare, a) := by
  unfold rotate_right
  rw [if_neg h0]
  simp only [hsq]

theorem rotate_right_ok_small (a : List α) (m : Nat) (h0 : ¬ a.length = 0)
    (hsq : square_len a.length = some m) (hm1 : m ≤ 1) :
    rotate_right a = some (Except.ok (), a) := by
  unfold rotate_right
  rw [if_neg h0]
  simp only [hsq, if_pos hm1]

theorem rotate_right_success_spec (a : List α) (n : Nat) (h2 : 2 ≤ n)
    (hsz : a.length = n * n) :
    ∃ b, rotate_right a = some (Except.ok (), b) ∧ b.length = a.length ∧ b.Perm a ∧
      (∀ layer r c : Nat, layer < n / 2 → onRing n layer r c →
        b.get? (idx n r c) =
          a.get? (idx n (ccwNeighbor n layer (r, c)).1 (ccwNeighbor n layer (r, c)).2)) ∧
      (∀ r c : Nat, r < n → c < n → (∀ l : Nat, l < n / 2 → ¬ onRing n l r c) →
        b.get? (idx n r c) = a.get? (idx n r c)) := by
  have h0 : ¬ a.length = 0 := by
    have h4 : 2 * 2 ≤ n * n := Nat.mul_le_mul h2 h2
    omega
  have hsq : square_len a.length = some n := by
    rw [hsz]
    exact (square_len_eq_some_iff (n * n) n).mpr rfl
  have h1 : ¬ n ≤ 1 := by omega
  obtain ⟨b, heqL, hlen, hperm, hring, hunt⟩ :=
    rotateLayers_spec n h2 (List.range (n / 2)) a hsz
      (fun x hx => List.mem_range.mp hx) (List.nodup_range _)
  refine ⟨b, rotate_right_ok_of_layers a n h0 hsq h1 b heqL, hlen, hperm, ?_, ?_⟩
  · intro layer r c hlay hon
    exact hring layer r c (List.mem_range.mpr hlay) hon
  · intro r c hr hc hnone
    exact hunt r c hr hc (fun x hx => hnone x (List.mem_range.mp hx))

/-- C1: for every buffer of length `n * n` with `n ≥ 2`, `rotate_right`
succeeds and rewrites the buffer so that each cell on each concentric ring
(`layer < n / 2`) receives the old value of its counter-clockwise
ring-neighbor — the whole ring shifts one position clockwise — and when
`n` is odd the single center cell `(n / 2, n / 2)` keeps its old value. -/
theorem rotate_right_shifts_rings_clockwise (β : Type) (a : List β) (n : Nat)
    (h2 : 2 ≤ n) (hsz : a.length = n * n) :
    ∃ b, rotate_right a = some (Except.ok (), b) ∧
      (∀ layer r c : Nat, layer < n / 2 → onRing n layer r c →
        b.get? (idx n r c) =
          a.get? (idx n (ccwNeighbor n layer (r, c)).1 (ccwNeighbor n layer (r, c)).2)) ∧
      (n % 2 = 1 → b.get? (idx n (n / 2) (n / 2)) = a.get? (idx n (n / 2) (n / 2))) := by
  obtain ⟨b, heq, hlen, hperm, hring, hunt⟩ := rotate_right_success_spec a n h2 hsz
  refine ⟨b, heq, hring, ?_⟩
  intro hodd
  exact hunt (n / 2) (n / 2) (by omega) (by omega)
    (fun l hli => center_not_onRing n l hodd hli)

theorem rotate_right_shifts_rings_clockwise_witness :
    ∃ b, rotate_right ([1, 2, 3, 4, 5, 6, 7, 8, 9] : List Nat)
        = some (Except.ok (), b) ∧
      (∀ layer r c : Nat, layer < 3 / 2 → onRing 3 layer r c →
        b.get? (idx 3 r c) =
          [1, 2, 3, 4, 5, 6, 7, 8, 9].get?
            (idx 3 (ccwNeighbor 3 layer (r, c)).1 (ccwNeighbor 3 layer (r, c)).2)) ∧
      (3 % 2 = 1 → b.get? (idx 3 (3 / 2) (3 / 2))
        = [1, 2, 3, 4, 5, 6, 7, 8, 9].get? (idx 3 (3 / 2) (3 / 2))) :=
  rotate_right_shifts_rings_clockwise Nat [1, 2, 3, 4, 5, 6, 7, 8, 9] 3
    (by omega) (by rfl)

/-- C3: `rotate_right` returns the `Empty` failure iff the buffer is empty,
the `NotSquare` failure iff the buffer is non-empty with non-perfect-square
length, and every failure leaves the buffer exactly as it was (failures are
detected before any mutation). -/
theorem rotate_right_failure_cases (β : Type) (a : List β) :
    (rotate_right a = some (Except.error RotationError.Empty, a) ↔ a.length = 0) ∧
    (rotate_right a = some (Except.error RotationError.NotSquare, a) ↔
      (a.length ≠ 0 ∧ ∀ m : Nat, m * m ≠ a.length)) ∧
    (∀ e : RotationError, ∀ b : List β,
      rotate_right a = some (Except.error e, b) → b = a) := by
  by_cases h0 : a.length = 0
  · have heq := rotate_right_empty_eq a h0
    refine ⟨⟨fun _ => h0, fun _ => heq⟩, ⟨?_, ?_⟩, ?_⟩
    · intro hcon
      rw [heq] at hcon
      exact absurd hcon (by simp)
    · intro hcon
      exact absurd h0 hcon.1
    · intro e b hcon
      rw [heq] at hcon
      simp only [Option.some.injEq, Prod.mk.injEq] at hcon
      exact hcon.2.symm
  · cases hsq : square_len a.length with
    | none =>
      have heq := rotate_right_notsquare_eq a h0 hsq
      have hns := (square_len_eq_none_iff a.length).mp hsq
      refine ⟨⟨?_, ?_⟩, ⟨fun _ => ⟨h0, hns⟩, fun _ => heq⟩, ?_⟩
      · intro hcon
        rw [heq] at hcon
        exact absurd hcon (by simp)
      · intro hcon
        exact absurd hcon h0
      · intro e b hcon
        rw [heq] at hcon
        simp only [Option.some.injEq, Prod.mk.injEq] at hcon
        exact hcon.2.symm
    | some m =>
      have hmm : m * m = a.length := (square_len_eq_some_iff a.length m).mp hsq
      have hok : ∃ b, rotate_right a = some (Except.ok (), b) := by
        by_cases hm1 : m ≤ 1
        · exact ⟨a, rotate_right_ok_small a m h0 hsq hm1⟩
        · obtain ⟨b, heq, _⟩ :=
            rotate_right_success_spec a m (by omega) hmm.symm
          exact ⟨b, heq⟩
      obtain ⟨b0, heq⟩ := hok
      refine ⟨⟨?_, ?_⟩, ⟨?_, ?_⟩, ?_⟩
      · intro hcon
        rw [heq] at hcon
        exact absurd hcon (by simp)
      · intro hcon
        exact absurd hcon h0
      · intro hcon
        rw [heq] at hcon
        exact absurd hcon (by simp)
      · intro hcon
        exact absurd hmm (hcon.2 m)
      · intro e b hcon
        rw [heq] at hcon
        exact absurd hcon (by simp)

/-- C5: whenever `rotate_right` reports success, the resulting buffer has the
same length as the input and is a permutation of it (the multiset of
element values is preserved). -/
theorem rotate_right_preserves_multiset (β : Type) (a b : List β)
    (h : rotate_right a = some (Except.ok (), b)) :
    b.length = a.length ∧ b.Perm a := by
  by_cases h0 : a.length = 0
  · rw [rotate_right_empty_eq a h0] at h
    exact absurd h (by simp)
  · cases hsq : square_len a.length with
    | none =>
      rw [rotate_right_notsquare_eq a h0 hsq] at h
      exact absurd h (by simp)
    | some m =>
      by_cases hm1 : m ≤ 1
      · rw [rotate_right_ok_small a m h0 hsq hm1] at h
        have hab : a = b := by
          simpa using h
        rw [← hab]
        exact ⟨rfl, List.Perm.refl a⟩
      · have hmm : m * m = a.length := (square_len_eq_some_iff a.length m).mp hsq
        obtain ⟨b', heq, hlen, hperm, _, _⟩ :=
          rotate_right_success_spec a m (by omega) hmm.symm
        rw [heq] at h
        have hbb : b' = b := by
          simpa using h
        rw [← hbb]
        exact ⟨hlen, hperm⟩

theorem rotate_right_preserves_multiset_witness :
    ([3, 1, 4, 2] : List Nat).length = [1, 2, 3, 4].length ∧
    ([3, 1, 4, 2] : List Nat).Perm [1, 2, 3, 4] :=
  rotate_right_preserves_multiset Nat [1, 2, 3, 4] [3, 1, 4, 2] rfl

/-- C9: for every `n ≥ 2` and layer below `n / 2`, every flat index the ring
walk computes — the initial read at `(layer + 1, layer)` included — is
strictly below `n * n`, so on a buffer of length `n * n` no access in
`rotate_ring_clockwise` is out of bounds and the embedded indexing's
failure branch (`none`) is unreachable. -/
theorem ring_indices_in_bounds (β : Type) (n layer : Nat) (h2 : 2 ≤ n)
    (hl : layer < n / 2) :
    idx n (layer + 1) layer < n * n ∧
    (∀ p ∈ ringWalk n layer, idx n p.1 p.2 < n * n) ∧
    (∀ a : List β, a.length = n * n → rotate_ring_clockwise a n layer ≠ none) := by
  obtain ⟨hfl, hln⟩ := layer_facts n layer h2 hl
  refine ⟨idx_lt_sq n (layer + 1) layer (by omega) (by omega), ?_, ?_⟩
  · rintro ⟨r, c⟩ hp
    have hon := (mem_ringWalk_iff n layer r c h2 hl).mp hp
    have hlt := onRing_coords_lt n layer r c h2 hl hon
    exact idx_lt_sq n r c hlt.1 hlt.2
  · intro a hsz hcon
    obtain ⟨b, heq, _⟩ := rotate_ring_spec a n layer h2 hl hsz
    rw [heq] at hcon
    exact Option.noConfusion hcon

theorem ring_indices_in_bounds_witness :
    idx 4 2 1 < 4 * 4 ∧
    (∀ p ∈ ringWalk 4 1, idx 4 p.1 p.2 < 4 * 4) ∧
    (∀ a : List Nat, a.length = 4 * 4 → rotate_ring_clockwise a 4 1 ≠ none) :=
  ring_indices_in_bounds Nat 4 1 (by omega) (by omega)

end TableRotation
